import Mathlib

/-!
Shallow embedding of the resource module of llvmenv (src/resource.rs).

The module classifies a URL string into one of three resource kinds
(`Svn`, `Git`, `Tar`), downloads a classified resource into a destination
directory, and updates an already-downloaded resource in place.

External collaborators are modeled explicitly:
* the url crate (`Url::parse`, `host_str`, `path`, `path_segments`) is
  modeled by a parse oracle `String → Option ParsedUrl` together with
  executable accessors on `ParsedUrl`;
* process execution, directory creation, HTTP transfer and file writes are
  modeled as an `Effect` trace together with a success oracle
  `Effect → Bool`;
* the state of the destination path is the three-valued `DestState`.
-/

/-- Model of Rust `str::ends_with`: the suffix check, on the character
list of the string. -/
def endsWithR (s suf : String) : Bool :=
  suf.toList.isSuffixOf s.toList

/-- Model of Rust `str::starts_with` on the character list of the string. -/
def startsWithR (s pre : String) : Bool :=
  pre.toList.isPrefixOf s.toList

/-- The fields of a parsed `url::Url` that resource.rs reads: `host_str()`
and `path()`. -/
structure ParsedUrl where
  host : Option String
  path : String
  deriving DecidableEq, Repr

/-- Splitting a character list on the slash character, as Rust
`str::split` does: it always yields at least one (possibly empty) piece,
and each slash ends a piece. -/
def splitSegs : List Char → List String
  | [] => [""]
  | c :: cs =>
    if c = '/' then "" :: splitSegs cs
    else
      match splitSegs cs with
      | [] => [String.mk [c]]
      | s :: rest => String.mk (c :: s.toList) :: rest

/-- Model of `Url::path_segments` of the url crate: `Some` exactly when
the path begins with a slash (equivalently, the URL is not
cannot-be-a-base), in which case the remainder of the path is split on
slashes. -/
def ParsedUrl.pathSegments (u : ParsedUrl) : Option (List String) :=
  match u.path.toList with
  | '/' :: rest => some (splitSegs rest)
  | _ => none

/-- The three error branches of `get_filename_from_url`:
`Url::parse` failing, `path_segments()` returning `None`
("URL parse failed"), and `last()` returning `None` ("URL is invalid"). -/
inductive FileNameErr where
  | url_parse
  | no_segments
  | invalid_url
  deriving DecidableEq, Repr

/-- Embedding of `get_filename_from_url` (resource.rs): parse the URL,
take its path segments, return the last one. -/
def get_filename_from_url (parse : String → Option ParsedUrl)
    (url_str : String) : Except FileNameErr String :=
  match parse url_str with
  | none => .error .url_parse
  | some url =>
    match url.pathSegments with
    | none => .error .no_segments
    | some seg =>
      match seg.getLast? with
      | none => .error .invalid_url
      | some filename => .ok filename

/-- The `Resource` enum of resource.rs. -/
inductive Resource where
  | Svn (url : String)
  | Git (url : String) (branch : Option String)
  | Tar (url : String)
  deriving DecidableEq, Repr

/-- The `url` field common to all three variants. -/
def Resource.url : Resource → String
  | .Svn u => u
  | .Git u _ => u
  | .Tar u => u

/-- The `branch` field of the `Git` variant, `none` on the others. -/
def Resource.git_branch : Resource → Option String
  | .Git _ b => b
  | _ => none

/-- Errors of `Resource::from_url`: `Url::parse` failing at step 2, and a
probe setup step (temp dir creation, `git init`, `git remote add`) failing,
which the source propagates with `?`. -/
inductive FromUrlErr where
  | url_parse
  | probe_setup
  deriving DecidableEq, Repr

/-- The environment a classification call runs in: the URL parser plus the
outcome of each side-effecting probe step. -/
structure Env where
  parse : String → Option ParsedUrl
  temp_dir_ok : Bool
  git_init_ok : Bool
  git_remote_add_ok : Bool
  ls_remote_ok : Bool

/-- The archive suffix list of `Resource::from_url`. -/
def archive_exts : List String :=
  [".tar.gz", ".tar.xz", ".tar.bz2", ".tar.Z", ".tgz", ".taz"]

/-- The fall-through portion of `Resource::from_url`: hostname rules and
the git probe, reached when the filename rules of step 1 did not return. -/
def from_url_host (env : Env) (url_str : String) : Except FromUrlErr Resource :=
  match env.parse url_str with
  | none => .error .url_parse
  | some url =>
    if url.host = some "github.com" ∨ url.host = some "gitlab.com" then
      .ok (.Git url_str none)
    else if url.host = some "llvm.org" ∧ startsWithR url.path "/svn" = true then
      .ok (.Svn url_str)
    else if url.host = some "llvm.org" ∧ startsWithR url.path "/git" = true then
      .ok (.Git url_str none)
    else if env.temp_dir_ok then
      if env.git_init_ok then
        if env.git_remote_add_ok then
          if env.ls_remote_ok then .ok (.Git url_str none)
          else .ok (.Svn url_str)
        else .error .probe_setup
      else .error .probe_setup
    else .error .probe_setup

/-- Embedding of `Resource::from_url`: the file-extension rules of step 1
(archive suffixes, then `trunk`, then `.git`), falling through to
`from_url_host` when none of them returns, or when
`get_filename_from_url` errored. -/
def Resource.from_url (env : Env) (url_str : String) : Except FromUrlErr Resource :=
  match get_filename_from_url env.parse url_str with
  | .ok filename =>
    if archive_exts.any (fun ext => endsWithR filename ext) then
      .ok (.Tar url_str)
    else if endsWithR filename "trunk" then
      .ok (.Svn url_str)
    else if endsWithR filename ".git" then
      .ok (.Git url_str none)
    else from_url_host env url_str
  | .error _ => from_url_host env url_str

/-- The state of the destination path before a `download` call: absent,
an existing directory, or an existing non-directory entry. -/
inductive DestState where
  | absent
  | directory
  | non_directory
  deriving DecidableEq, Repr

/-- One observable side effect of `download` / `update`: a
`fs::create_dir_all` call, an external command (program, arguments,
optional working directory), an HTTP GET, or a file write. -/
inductive Effect where
  | create_dir_all (path : String)
  | cmd (prog : String) (args : List String) (cwd : Option String)
  | http_get (url : String)
  | write_file (path : String)
  deriving DecidableEq, Repr

/-- Errors of `download` / `update`: the bail on a non-directory
destination, a directory-creation or file IO error, a command exiting
non-zero, a transfer failure, a filename-extraction error inside
`download_file`, and the `unwrap` panic on `file_name()`. -/
inductive DlErr where
  | not_directory
  | io
  | command
  | transfer
  | filename (e : FileNameErr)
  | name_panic
  deriving DecidableEq, Repr

/-- Embedding of `download_file` (resource.rs): blocking GET of the URL,
then the output path (inside `temp` when `temp` is a directory, `temp`
itself otherwise), then the write of the body. The create, copy and sync
steps are collapsed into one `write_file` action. -/
def download_file (run : Effect → Bool) (parse : String → Option ParsedUrl)
    (url temp : String) (temp_is_dir : Bool) : List Effect × Except DlErr String :=
  let g := Effect.http_get url
  if run g then
    match
      (if temp_is_dir then
        match get_filename_from_url parse url with
        | .ok name => .ok (temp ++ "/" ++ name)
        | .error e => .error (DlErr.filename e)
      else .ok temp : Except DlErr String) with
    | .error e => ([g], .error e)
    | .ok out =>
      let w := Effect.write_file out
      if run w then ([g, w], .ok out) else ([g, w], .error .io)
  else ([g], .error .transfer)

/-- Model of Rust `Path::file_name` for the slash-separated paths built
here: the last slash-separated component, `none` when it is empty. -/
def file_name (p : String) : Option String :=
  match (splitSegs p.toList).getLast? with
  | some s => if s = "" then none else some s
  | none => none

/-- The arguments built for `git clone` in `Resource::download`:
`clone <url> --depth 1 <dest>`, with `-b <branch>` appended afterward
when a branch is set. -/
def git_clone_args (url : String) (branch : Option String) (dest : String) :
    List String :=
  ["clone", url, "--depth", "1", dest] ++
    (match branch with
     | some b => ["-b", b]
     | none => [])

/-- The per-kind body of `Resource::download` (the `match self` block),
run once the destination is known to be a directory. -/
def Resource.download_step (run : Effect → Bool)
    (parse : String → Option ParsedUrl) (r : Resource) (dest : String) :
    List Effect × Except DlErr Unit :=
  match r with
  | .Svn url =>
    let a := Effect.cmd "svn" ["co", url, "-r", "HEAD", dest] none
    ([a], if run a then .ok () else .error .command)
  | .Git url branch =>
    let a := Effect.cmd "git" (git_clone_args url branch dest) none
    ([a], if run a then .ok () else .error .command)
  | .Tar url =>
    match download_file run parse url dest true with
    | (tr, .error e) => (tr, .error e)
    | (tr, .ok out) =>
      match file_name out with
      | none => (tr, .error .name_panic)
      | some fname =>
        let a := Effect.cmd "tar" ["xf", fname] (some dest)
        (tr ++ [a], if run a then .ok () else .error .command)

/-- Embedding of `Resource::download`: create the destination (with
parents) when absent, bail when the destination is not a directory, then
run the per-kind step. A successful `create_dir_all` leaves the
destination a directory, so the `is_dir` check passes after it. -/
def Resource.download (run : Effect → Bool)
    (parse : String → Option ParsedUrl) (r : Resource) (dest_path : String)
    (dest : DestState) : List Effect × Except DlErr Unit :=
  match dest with
  | .absent =>
    let c := Effect.create_dir_all dest_path
    if run c then
      let pk := r.download_step run parse dest_path
      (c :: pk.1, pk.2)
    else ([c], .error .io)
  | .non_directory => ([], .error .not_directory)
  | .directory => r.download_step run parse dest_path

/-- Embedding of `Resource::update`: `svn update` in the destination for
`Svn`, `git pull` in the destination for `Git`, and nothing at all for
`Tar`. -/
def Resource.update (run : Effect → Bool) (r : Resource) (dest_path : String) :
    List Effect × Except DlErr Unit :=
  match r with
  | .Svn _ =>
    let a := Effect.cmd "svn" ["update"] (some dest_path)
    ([a], if run a then .ok () else .error .command)
  | .Git _ _ =>
    let a := Effect.cmd "git" ["pull"] (some dest_path)
    ([a], if run a then .ok () else .error .command)
  | .Tar _ => ([], .ok ())

/-- A parse oracle for the release-archive scenario URL of the tests. -/
def parse_tar : String → Option ParsedUrl := fun s =>
  if s = "http://releases.llvm.org/6.0.1/llvm-6.0.1.src.tar.xz" then
    some ⟨some "releases.llvm.org", "/6.0.1/llvm-6.0.1.src.tar.xz"⟩
  else none

/-- A classification environment built on `parse_tar`. -/
def env_tar : Env := ⟨parse_tar, true, true, true, true⟩

/-- A parse oracle for the LLVM subversion scenario URL of the tests. -/
def parse_trunk : String → Option ParsedUrl := fun s =>
  if s = "http://llvm.org/svn/llvm-project/llvm/trunk" then
    some ⟨some "llvm.org", "/svn/llvm-project/llvm/trunk"⟩
  else none

/-- A classification environment built on `parse_trunk`. -/
def env_trunk : Env := ⟨parse_trunk, true, true, true, true⟩

/-- Modelled from the spec: the external-interface grammar
`clone [--depth 1] [-b <branch>] <url> <dest>` of section 6, read as a
sequence of command-line arguments. -/
def clone_grammar (url dest : String) (args : List String) : Prop :=
  ∃ (depth_flag : Bool) (branch : Option String),
    args = ["clone"] ++ (if depth_flag then ["--depth", "1"] else []) ++
      (match branch with
       | some b => ["-b", b]
       | none => []) ++ [url, dest]

/-- A success oracle under which every effect succeeds. -/
def run_all : Effect → Bool := fun _ => true

/-- A parse oracle that rejects every URL. -/
def parse_none : String → Option ParsedUrl := fun _ => none

/-- A parse oracle for the GitHub scenario URL of the tests. -/
def parse_github : String → Option ParsedUrl := fun s =>
  if s = "http://github.com/termoshtt/llvmenv" then
    some ⟨some "github.com", "/termoshtt/llvmenv"⟩
  else none

/-- A classification environment built on `parse_github`. -/
def env_github : Env := ⟨parse_github, true, true, true, true⟩

/-- A parse oracle for an unrecognized host, forcing the probe. -/
def parse_probe : String → Option ParsedUrl :=
  fun _ => some ⟨some "example.com", "/repo"⟩

/-- A classification environment built on `parse_probe` where every probe
step succeeds. -/
def env_probe : Env := ⟨parse_probe, true, true, true, true⟩

/-- A parse oracle with a cloud-git host, used by the C9 witness. -/
def parse_cloud : String → Option ParsedUrl :=
  fun _ => some ⟨some "github.com", "/x"⟩

/-- A classification environment built on `parse_cloud`. -/
def env_cloud : Env := ⟨parse_cloud, true, true, true, true⟩

/-- A parse oracle whose URL has a path ending in a slash, used by the
C10 witness. -/
def parse_slash : String → Option ParsedUrl :=
  fun _ => some ⟨some "example.com", "/a/b/"⟩

theorem splitSegs_ne_nil : ∀ l : List Char, splitSegs l ≠ [] := by
  intro l
  cases l with
  | nil => simp [splitSegs]
  | cons c cs =>
    simp only [splitSegs]
    split
    · simp
    · split <;> simp

theorem splitSegs_length_two (l : List Char) (h : '/' ∈ l) :
    2 ≤ (splitSegs l).length := by
  induction l with
  | nil => cases h
  | cons c cs ih =>
    by_cases hc : c = '/'
    · simp only [splitSegs, if_pos hc]
      have h1 : splitSegs cs ≠ [] := splitSegs_ne_nil cs
      have h2 : 1 ≤ (splitSegs cs).length := by
        cases hs : splitSegs cs with
        | nil => exact absurd hs h1
        | cons s rest => simp
      simpa using h2
    · have hic : '/' ∈ cs := by
        rcases List.mem_cons.mp h with h1 | h2
        · exact absurd h1.symm hc
        · exact h2
      have h2 := ih hic
      simp only [splitSegs, if_neg hc]
      cases hs : splitSegs cs with
      | nil => exact absurd hs (splitSegs_ne_nil cs)
      | cons s rest =>
        rw [hs] at h2
        simpa using h2

theorem splitSegs_concat_slash (l : List Char) :
    (splitSegs (l ++ ['/'])).getLast? = some "" := by
  induction l with
  | nil => rfl
  | cons c cs ih =>
    by_cases hc : c = '/'
    · rw [List.cons_append]
      simp only [splitSegs, if_pos hc]
      cases hs : splitSegs (cs ++ ['/']) with
      | nil => exact absurd hs (splitSegs_ne_nil _)
      | cons s rest =>
        rw [List.getLast?_cons_cons, ← hs]
        exact ih
    · rw [List.cons_append]
      simp only [splitSegs, if_neg hc]
      cases hs : splitSegs (cs ++ ['/']) with
      | nil => exact absurd hs (splitSegs_ne_nil _)
      | cons s rest =>
        show (String.mk (c :: s.toList) :: rest).getLast? = some ""
        cases rest with
        | nil =>
          have h2 : 2 ≤ (splitSegs (cs ++ ['/'])).length :=
            splitSegs_length_two _ (by simp)
          rw [hs] at h2
          simp at h2
        | cons s2 rest2 =>
          rw [List.getLast?_cons_cons]
          rw [hs, List.getLast?_cons_cons] at ih
          exact ih

theorem pathSegments_eq_splitSegs (u : ParsedUrl) (segs : List String)
    (h : u.pathSegments = some segs) :
    ∃ rest : List Char, u.path.toList = '/' :: rest ∧ segs = splitSegs rest := by
  unfold ParsedUrl.pathSegments at h
  split at h
  · next rest heq =>
    injection h with h
    exact ⟨rest, heq, h.symm⟩
  · exact absurd h (by simp)

theorem pathSegments_last_isSome (u : ParsedUrl) (segs : List String)
    (h : u.pathSegments = some segs) : ∃ f, segs.getLast? = some f := by
  obtain ⟨rest, _, hsp⟩ := pathSegments_eq_splitSegs u segs h
  cases hl : segs.getLast? with
  | none =>
    have : segs = [] := List.getLast?_eq_none_iff.mp hl
    exact absurd (hsp.symm.trans this) (splitSegs_ne_nil rest)
  | some f => exact ⟨f, rfl⟩

theorem pathSegments_trailing_slash (u : ParsedUrl) (segs : List String)
    (hseg : u.pathSegments = some segs) (hend : endsWithR u.path "/" = true) :
    segs.getLast? = some "" := by
  obtain ⟨rest, heq, hsp⟩ := pathSegments_eq_splitSegs u segs hseg
  unfold endsWithR at hend
  rw [List.isSuffixOf_iff_suffix] at hend
  obtain ⟨t, ht⟩ := hend
  rw [heq] at ht
  have hts : "/".toList = ['/'] := rfl
  rw [hts] at ht
  subst hsp
  cases t with
  | nil =>
    have : rest = [] := by
      have h2 := ht
      simp at h2
      exact h2
    rw [this]
    rfl
  | cons a t2 =>
    have h2 : a = '/' ∧ t2 ++ ['/'] = rest := by
      rw [List.cons_append] at ht
      exact ⟨(List.cons.injEq _ _ _ _ ▸ ht).1.symm ▸ rfl, by
        have := (List.cons.inj ht).2
        exact this⟩
    rw [← h2.2]
    exact splitSegs_concat_slash t2

theorem startsWithR_git_not_svn (s : String)
    (h : startsWithR s "/git" = true) : startsWithR s "/svn" = false := by
  unfold startsWithR at h ⊢
  rw [show "/git".toList = ['/', 'g', 'i', 't'] from rfl] at h
  rw [show "/svn".toList = ['/', 's', 'v', 'n'] from rfl]
  cases hl : s.toList with
  | nil => rw [hl] at h; simp [List.isPrefixOf] at h
  | cons a l1 =>
    cases l1 with
    | nil => rw [hl] at h; simp [List.isPrefixOf] at h
    | cons b l2 =>
      rw [hl] at h
      simp only [List.isPrefixOf, Bool.and_eq_true, beq_iff_eq] at h
      obtain ⟨ha, hb, htail⟩ := h
      subst hb
      simp [List.isPrefixOf]

theorem from_url_eq_host (env : Env) (url_str : String)
    (hstep1 : ∀ filename,
      get_filename_from_url env.parse url_str = .ok filename →
      archive_exts.any (fun ext => endsWithR filename ext) = false ∧
      endsWithR filename "trunk" = false ∧
      endsWithR filename ".git" = false) :
    Resource.from_url env url_str = from_url_host env url_str := by
  unfold Resource.from_url
  cases hgf : get_filename_from_url env.parse url_str with
  | error e => rfl
  | ok filename =>
    obtain ⟨h1, h2, h3⟩ := hstep1 filename hgf
    simp [h1, h2, h3]

/-- Claim C1: for every URL string whose final path segment ends with one
of the suffixes `.tar.gz, .tar.xz, .tar.bz2, .tar.Z, .tgz, .taz`,
classification succeeds and returns the archive variant with the url
field equal to the input string verbatim, regardless of the host (the
environment, hence the parsed host, is universally quantified). -/
theorem from_url_archive_suffix (env : Env) (url_str filename ext : String)
    (hget : get_filename_from_url env.parse url_str = .ok filename)
    (hmem : ext ∈ archive_exts) (hend : endsWithR filename ext = true) :
    Resource.from_url env url_str = .ok (.Tar url_str) := by
  have hany : archive_exts.any (fun e => endsWithR filename e) = true :=
    List.any_eq_true.mpr ⟨ext, hmem, hend⟩
  unfold Resource.from_url
  rw [hget]
  simp [hany]

/-- Witness for C1 at the release-archive scenario URL. -/
theorem from_url_archive_suffix_witness :
    Resource.from_url env_tar
        "http://releases.llvm.org/6.0.1/llvm-6.0.1.src.tar.xz" =
      .ok (.Tar "http://releases.llvm.org/6.0.1/llvm-6.0.1.src.tar.xz") :=
  from_url_archive_suffix env_tar _ "llvm-6.0.1.src.tar.xz" ".tar.xz"
    (by rfl) (by decide) (by rfl)

/-- Claim C3: a final path segment ending with `trunk` (and not ending
with an archive suffix) classifies as the subversion variant, whatever
the host, the `.git` rule and the probe environment would have said
(all of these are universally quantified, so the rule wins over them). -/
theorem from_url_trunk (env : Env) (url_str filename : String)
    (hget : get_filename_from_url env.parse url_str = .ok filename)
    (htrunk : endsWithR filename "trunk" = true)
    (harch : archive_exts.any (fun ext => endsWithR filename ext) = false) :
    Resource.from_url env url_str = .ok (.Svn url_str) := by
  unfold Resource.from_url
  rw [hget]
  simp [harch, htrunk]

/-- Witness for C3 at the LLVM subversion scenario URL, whose final
segment is exactly `trunk`. -/
theorem from_url_trunk_witness :
    Resource.from_url env_trunk "http://llvm.org/svn/llvm-project/llvm/trunk" =
      .ok (.Svn "http://llvm.org/svn/llvm-project/llvm/trunk") :=
  from_url_trunk env_trunk _ "trunk" (by rfl) (by rfl) (by rfl)

/-- Claim C7: updating an archive resource is a complete no-op: it
succeeds, produces an empty effect trace (so it invokes no external tool
and touches neither the destination nor the rest of the filesystem),
for every success oracle, url and destination path. -/
theorem update_tar_noop (run : Effect → Bool) (url dest_path : String) :
    Resource.update run (.Tar url) dest_path = ([], .ok ()) := rfl

/-- Counterexample for C6: at a concrete Git resource with a branch set,
the invoked command line is
`clone <url> --depth 1 <dest> -b <branch>`, which matches no sequence
generated by the grammar `clone [--depth 1] [-b <branch>] <url> <dest>`,
because the option arguments follow the url and destination instead of
preceding them. -/
theorem download_git_clone_not_grammar :
    (Resource.download (fun _ => true) (fun _ => none)
        (.Git "http://example.com/repo" (some "dev")) "dest" .directory).1 =
      [Effect.cmd "git"
        ["clone", "http://example.com/repo", "--depth", "1", "dest",
          "-b", "dev"] none] ∧
    ¬ clone_grammar "http://example.com/repo" "dest"
      ["clone", "http://example.com/repo", "--depth", "1", "dest",
        "-b", "dev"] := by
  refine ⟨rfl, ?_⟩
  rintro ⟨d, b, hb⟩
  cases d <;> rcases b with _ | br <;> simp at hb

/-- Claim C6 (amended): acquiring a Git resource invokes exactly one
external command, a clone of the url into the destination limited to
history depth 1; when a branch is set the command line additionally
carries `-b <branch>`, appended after the destination, so the argument
order is `clone <url> --depth 1 <dest> [-b <branch>]` rather than the
order written in the external-interface grammar. -/
theorem download_git_clone (run : Effect → Bool)
    (parse : String → Option ParsedUrl) (url : String)
    (branch : Option String) (dest_path : String) :
    (Resource.download run parse (.Git url branch) dest_path .directory).1 =
      [Effect.cmd "git" (["clone", url, "--depth", "1", dest_path] ++
        (match branch with
         | some b => ["-b", b]
         | none => [])) none] := rfl

/-- Claim C4: for every resource kind and destination, `download` first
creates the destination directory (with parents) when it is absent — the
trace is the creation effect followed exactly by what a run on an
existing directory does — and when the destination exists as a
non-directory it fails with the filesystem error having run no per-kind
effect at all (the trace is empty). -/
theorem download_dest_rules (run : Effect → Bool)
    (parse : String → Option ParsedUrl) (r : Resource) (dest_path : String) :
    (run (Effect.create_dir_all dest_path) = true →
      Resource.download run parse r dest_path .absent =
        (Effect.create_dir_all dest_path ::
            (Resource.download run parse r dest_path .directory).1,
          (Resource.download run parse r dest_path .directory).2)) ∧
    Resource.download run parse r dest_path .non_directory =
      ([], .error .not_directory) :=
  ⟨fun hc => by simp [Resource.download, hc], rfl⟩

/-- Witness for C4 at a concrete resource and destination. -/
theorem download_dest_rules_witness :
    Resource.download run_all parse_none (.Svn "u") "d" .absent =
      (Effect.create_dir_all "d" ::
          (Resource.download run_all parse_none (.Svn "u") "d" .directory).1,
        (Resource.download run_all parse_none (.Svn "u") "d" .directory).2) ∧
    Resource.download run_all parse_none (.Svn "u") "d" .non_directory =
      ([], .error .not_directory) :=
  ⟨(download_dest_rules run_all parse_none (.Svn "u") "d").1 rfl,
    (download_dest_rules run_all parse_none (.Svn "u") "d").2⟩

/-- Claim C2: for a URL not matched by the three step-1 filename rules,
a host of exactly `github.com` or `gitlab.com` classifies as Git with no
branch; a host of `llvm.org` classifies as Subversion when the path
starts with `/svn` and as Git with no branch when it starts with
`/git`. -/
theorem from_url_host_rules (env : Env) (url_str : String) (url : ParsedUrl)
    (hparse : env.parse url_str = some url)
    (hstep1 : ∀ filename,
      get_filename_from_url env.parse url_str = .ok filename →
      archive_exts.any (fun ext => endsWithR filename ext) = false ∧
      endsWithR filename "trunk" = false ∧
      endsWithR filename ".git" = false) :
    ((url.host = some "github.com" ∨ url.host = some "gitlab.com") →
      Resource.from_url env url_str = .ok (.Git url_str none)) ∧
    (url.host = some "llvm.org" → startsWithR url.path "/svn" = true →
      Resource.from_url env url_str = .ok (.Svn url_str)) ∧
    (url.host = some "llvm.org" → startsWithR url.path "/git" = true →
      Resource.from_url env url_str = .ok (.Git url_str none)) := by
  have hmain := from_url_eq_host env url_str hstep1
  refine ⟨fun hh => ?_, fun hh hp => ?_, fun hh hp => ?_⟩
  · rw [hmain]
    unfold from_url_host
    rw [hparse]
    simp [hh]
  · rw [hmain]
    unfold from_url_host
    rw [hparse]
    have h1 : ¬(url.host = some "github.com" ∨ url.host = some "gitlab.com") := by
      rintro (h | h) <;> rw [hh] at h <;>
        exact absurd (Option.some.inj h) (by decide)
    simp [h1, hh, hp]
  · rw [hmain]
    unfold from_url_host
    rw [hparse]
    have h1 : ¬(url.host = some "github.com" ∨ url.host = some "gitlab.com") := by
      rintro (h | h) <;> rw [hh] at h <;>
        exact absurd (Option.some.inj h) (by decide)
    have hsvn : startsWithR url.path "/svn" = false :=
      startsWithR_git_not_svn url.path hp
    simp [h1, hh, hp, hsvn]

/-- Witness for C2 at the GitHub scenario URL. -/
theorem from_url_host_rules_witness :
    Resource.from_url env_github "http://github.com/termoshtt/llvmenv" =
      .ok (.Git "http://github.com/termoshtt/llvmenv" none) :=
  (from_url_host_rules env_github "http://github.com/termoshtt/llvmenv"
      ⟨some "github.com", "/termoshtt/llvmenv"⟩ rfl
      (fun f hf => by
        have h2 : Except.ok (ε := FileNameErr) "llvmenv" = Except.ok f :=
          (show get_filename_from_url env_github.parse
              "http://github.com/termoshtt/llvmenv" =
            .ok "llvmenv" from rfl).symm.trans hf
        injection h2 with h2
        subst h2
        exact ⟨rfl, rfl, rfl⟩)).1 (Or.inl rfl)

/-- Claim C5: once the probe setup (temp directory, `git init`,
`git remote add`) has succeeded and the remote-listing step runs,
classification resolves deterministically and without error: Git with no
branch when the listing succeeds, Subversion when it fails — in both
cases an Ok result, never an ambiguous-kind error. -/
theorem from_url_probe_resolves (env : Env) (url_str : String)
    (url : ParsedUrl)
    (hparse : env.parse url_str = some url)
    (hstep1 : ∀ filename,
      get_filename_from_url env.parse url_str = .ok filename →
      archive_exts.any (fun ext => endsWithR filename ext) = false ∧
      endsWithR filename "trunk" = false ∧
      endsWithR filename ".git" = false)
    (hgithub : ¬(url.host = some "github.com" ∨ url.host = some "gitlab.com"))
    (hsvn : ¬(url.host = some "llvm.org" ∧ startsWithR url.path "/svn" = true))
    (hgit : ¬(url.host = some "llvm.org" ∧ startsWithR url.path "/git" = true))
    (ht : env.temp_dir_ok = true) (hi : env.git_init_ok = true)
    (hr : env.git_remote_add_ok = true) :
    Resource.from_url env url_str =
      .ok (if env.ls_remote_ok then .Git url_str none else .Svn url_str) := by
  rw [from_url_eq_host env url_str hstep1]
  unfold from_url_host
  rw [hparse]
  simp only [if_neg hgithub, if_neg hsvn, if_neg hgit, ht, hi, hr, if_true]
  cases hls : env.ls_remote_ok <;> simp

/-- Witness for C5 at a URL with an unrecognized host and a successful
probe. -/
theorem from_url_probe_resolves_witness :
    Resource.from_url env_probe "svn://example.com/repo" =
      .ok (.Git "svn://example.com/repo" none) :=
  from_url_probe_resolves env_probe "svn://example.com/repo"
    ⟨some "example.com", "/repo"⟩ rfl
    (fun f hf => by
      have h2 : Except.ok (ε := FileNameErr) "repo" = Except.ok f :=
        (show get_filename_from_url env_probe.parse
            "svn://example.com/repo" = .ok "repo" from rfl).symm.trans hf
      injection h2 with h2
      subst h2
      exact ⟨rfl, rfl, rfl⟩)
    (by decide) (by decide) (by decide) rfl rfl rfl

theorem from_url_host_invariant (env : Env) (url_str : String) (r : Resource)
    (h : from_url_host env url_str = .ok r) :
    r.url = url_str ∧ r.git_branch = none := by
  unfold from_url_host at h
  split at h
  · exact absurd h (by simp)
  · repeat' split at h
    all_goals
      first
        | (injection h with h; subst h; exact ⟨rfl, rfl⟩)
        | exact absurd h (by simp)

/-- Claim C9: whenever classification succeeds, the url field of the
returned resource equals the input string verbatim, and every Git result
carries no branch — across all return branches (archive suffix, trunk,
`.git`, cloud hosts, the two llvm.org prefixes, both probe outcomes). -/
theorem from_url_invariant (env : Env) (url_str : String) (r : Resource)
    (h : Resource.from_url env url_str = .ok r) :
    r.url = url_str ∧ r.git_branch = none := by
  unfold Resource.from_url at h
  split at h
  · repeat' split at h
    all_goals
      first
        | (injection h with h; subst h; exact ⟨rfl, rfl⟩)
        | exact from_url_host_invariant env url_str r h
  · exact from_url_host_invariant env url_str r h

/-- Witness for C9 at a concrete successful classification. -/
theorem from_url_invariant_witness :
    (Resource.Git "u" none).url = "u" ∧
    (Resource.Git "u" none).git_branch = none :=
  from_url_invariant env_cloud "u" (.Git "u" none) rfl

/-- Claim C8: `get_filename_from_url` returns the last path segment of
the parsed URL, and fails exactly when the URL fails to parse or has no
path-segments view. -/
theorem get_filename_spec (parse : String → Option ParsedUrl)
    (url_str : String) :
    (∀ url segs, parse url_str = some url → url.pathSegments = some segs →
      get_filename_from_url parse url_str = .ok (segs.getLastD "")) ∧
    ((∃ e, get_filename_from_url parse url_str = .error e) ↔
      (parse url_str = none ∨
        ∃ url, parse url_str = some url ∧ url.pathSegments = none)) := by
  constructor
  · intro url segs hp hs
    obtain ⟨f, hf⟩ := pathSegments_last_isSome url segs hs
    simp only [get_filename_from_url, hp, hs, hf]
    simp [List.getLastD_eq_getLast?, hf]
  · constructor
    · rintro ⟨e, he⟩
      cases hp : parse url_str with
      | none => exact Or.inl rfl
      | some url =>
        right
        refine ⟨url, rfl, ?_⟩
        cases hs : url.pathSegments with
        | none => rfl
        | some segs =>
          obtain ⟨f, hf⟩ := pathSegments_last_isSome url segs hs
          simp only [get_filename_from_url, hp, hs, hf] at he
          exact absurd he (by simp)
    · rintro (hp | ⟨url, hp, hs⟩)
      · exact ⟨.url_parse, by simp [get_filename_from_url, hp]⟩
      · exact ⟨.no_segments, by simp [get_filename_from_url, hp, hs]⟩

/-- Witness for C8 at the release-archive scenario URL. -/
theorem get_filename_spec_witness :
    get_filename_from_url parse_tar
        "http://releases.llvm.org/6.0.1/llvm-6.0.1.src.tar.xz" =
      .ok ((["6.0.1", "llvm-6.0.1.src.tar.xz"] : List String).getLastD "") :=
  (get_filename_spec parse_tar
      "http://releases.llvm.org/6.0.1/llvm-6.0.1.src.tar.xz").1
    ⟨some "releases.llvm.org", "/6.0.1/llvm-6.0.1.src.tar.xz"⟩
    ["6.0.1", "llvm-6.0.1.src.tar.xz"] rfl rfl

/-- Claim C10: the internal "URL is invalid" branch of
`get_filename_from_url` is unreachable, because a path-segments view
always yields at least one (possibly empty) segment; whenever the URL
parses and has a path-segments view the call returns Ok, and a path
ending in a slash yields the empty string rather than an error. -/
theorem get_filename_total_on_segments (parse : String → Option ParsedUrl)
    (url_str : String) :
    (get_filename_from_url parse url_str ≠ .error .invalid_url) ∧
    (∀ url segs, parse url_str = some url → url.pathSegments = some segs →
      ∃ f, get_filename_from_url parse url_str = .ok f) ∧
    (∀ url segs, parse url_str = some url → url.pathSegments = some segs →
      endsWithR url.path "/" = true →
      get_filename_from_url parse url_str = .ok "") := by
  refine ⟨?_, ?_, ?_⟩
  · intro h
    cases hp : parse url_str with
    | none =>
      simp only [get_filename_from_url, hp] at h
      injection h with h
      exact FileNameErr.noConfusion h
    | some url =>
      cases hs : url.pathSegments with
      | none =>
        simp only [get_filename_from_url, hp, hs] at h
        injection h with h
        exact FileNameErr.noConfusion h
      | some segs =>
        obtain ⟨f, hf⟩ := pathSegments_last_isSome url segs hs
        simp only [get_filename_from_url, hp, hs, hf] at h
        exact Except.noConfusion h
  · intro url segs hp hs
    obtain ⟨f, hf⟩ := pathSegments_last_isSome url segs hs
    exact ⟨f, by simp only [get_filename_from_url, hp, hs, hf]⟩
  · intro url segs hp hs hend
    have h0 := pathSegments_trailing_slash url segs hs hend
    simp only [get_filename_from_url, hp, hs, h0]

/-- Witness for C10: at a path ending in a slash, the call returns the
empty string, and the invalid-url error indeed does not occur. -/
theorem get_filename_total_on_segments_witness :
    get_filename_from_url parse_slash "u" ≠ .error .invalid_url ∧
    get_filename_from_url parse_slash "u" = .ok "" :=
  ⟨(get_filename_total_on_segments parse_slash "u").1,
    (get_filename_total_on_segments parse_slash "u").2.2
      ⟨some "example.com", "/a/b/"⟩ ["a", "b", ""] rfl rfl rfl⟩
